import Mathlib

/-!
Verification of the combination-generation core of the Mark Six analyzer
(src/m6.py): the frequency table, the weighted sampler
generate_weighted_combinations and the banker-constrained sampler
generate_banker_combinations, shallowly embedded over an explicit stream of
random values.
-/

namespace M6

/-- A frequency table: the Python Counter/dict mapping each number to its
historical draw count, modelled as an insertion-ordered association list. -/
abbrev Table := List (Int × Nat)

/-- Python dict.keys() as a list (insertion order). -/
def keys (t : Table) : List Int := t.map Prod.fst

/-- Python dict.values() as a list (insertion order). -/
def values (t : Table) : List Nat := t.map Prod.snd

/-- Python number_counts[num]: dict lookup. In a real dict keys are unique, so
taking the first matching pair is exact. -/
def lookupCount (t : Table) (x : Int) : Nat :=
  ((t.find? (fun p => p.1 == x)).map Prod.snd).getD 0

/-- Total of the weights, as random.choices computes from the cumulative sums. -/
def totalWeight (l : List (Int × Nat)) : Nat := (l.map Prod.snd).sum

/-- One weighted selection: the element whose cumulative-weight interval
contains u. This mirrors bisect.bisect(cum_weights, random() * total) inside
random.choices: an element of weight w owns a half-open interval of length w,
so a zero-weight element owns an empty interval and is never selected. -/
def pickWeighted : List (Int × Nat) → Nat → Int
  | [], _ => 0
  | (x, w) :: rest, u => if u < w then x else pickWeighted rest (u - w)

/-- random.choices(population, weights=weights, k=k). The j-th draw consumes
the stream value rng (base + j), reduced mod the total weight so that the
support is exactly the half-open range the float random() * total covers.
none models the exception random.choices raises when the total weight is zero
(ValueError) or the population is empty (IndexError). -/
def choices (pop : List Int) (wts : List Nat) (k : Nat) (rng : Nat → Nat)
    (base : Nat) : Option (List Int) :=
  let pw := pop.zip wts
  if totalWeight pw = 0 then none
  else some ((List.range k).map (fun j => pickWeighted pw (rng (base + j) % totalWeight pw)))

/-- Helper for dedupFirst, carrying the set of already-seen elements. -/
def dedupFirstAux (seen : List Int) : List Int → List Int
  | [] => []
  | x :: rest =>
    if x ∈ seen then dedupFirstAux seen rest
    else x :: dedupFirstAux (x :: seen) rest

/-- list(dict.fromkeys(l)): deduplicate keeping the first occurrence of each
element, preserving their order. -/
def dedupFirst (l : List Int) : List Int := dedupFirstAux [] l

/-- Python sorted(l) for a list of integers: the ascending sort. -/
def pySorted (l : List Int) : List Int := l.insertionSort (· ≤ ·)

/-- Python slice l[:n] for an arbitrary (possibly negative) integer n. -/
def pySlice (l : List Int) (n : Int) : List Int :=
  if n < 0 then l.take ((l.length : Int) + n).toNat else l.take n.toNat

/-- One iteration of the loop in generate_weighted_combinations. The outer
Option models an exception escaping the call; the inner Option distinguishes
an emitted combination (some c) from a silently omitted draw (none). -/
def weightedDraw (pop : List Int) (wts : List Nat) (num_per_combo : Int)
    (rng : Nat → Nat) (i : Nat) : Option (Option (List Int)) :=
  match choices pop wts 20 rng (20 * i) with
  | none => none
  | some potential_picks =>
    if num_per_combo ≤ ((dedupFirst potential_picks).length : Int) then
      some (some (pySorted (pySlice (dedupFirst potential_picks) num_per_combo)))
    else some none

/-- One iteration of the loop in generate_banker_combinations. -/
def bankerDraw (leg_pop : List Int) (leg_wts : List Nat) (bankers : List Int)
    (legs_needed : Int) (rng : Nat → Nat) (i : Nat) : Option (Option (List Int)) :=
  match choices leg_pop leg_wts 15 rng (15 * i) with
  | none => none
  | some potential_legs =>
    if legs_needed ≤ ((dedupFirst potential_legs).length : Int) then
      some (some (pySorted (bankers ++ pySlice (dedupFirst potential_legs) legs_needed)))
    else some none

/-- The batch loop: run the per-draw step over the given indices in order,
collecting the emitted combinations; an exception (none) aborts the call. -/
def collectDraws (step : Nat → Option (Option (List Int))) :
    List Nat → Option (List (List Int))
  | [] => some []
  | i :: rest =>
    match step i with
    | none => none
    | some none => collectDraws step rest
    | some (some c) => (collectDraws step rest).map (fun out => c :: out)

/-- generate_weighted_combinations(number_counts, num_combinations,
num_per_combo) from src/m6.py, with the stream rng standing for the global
random source; combination i uses stream values 20 * i .. 20 * i + 19. -/
def generate_weighted_combinations (number_counts : Table)
    (num_combinations num_per_combo : Int) (rng : Nat → Nat) :
    Option (List (List Int)) :=
  if number_counts.isEmpty then some []
  else
    collectDraws
      (weightedDraw (keys number_counts) (values number_counts) num_per_combo rng)
      (List.range num_combinations.toNat)

/-- Line 74: leg_population, the table keys with the bankers removed. -/
def leg_population (number_counts : Table) (bankers : List Int) : List Int :=
  (keys number_counts).filter (fun num => decide (num ∉ bankers))

/-- Line 75: leg_weights, the original counts of the restricted population. -/
def leg_weights (number_counts : Table) (bankers : List Int) : List Nat :=
  (leg_population number_counts bankers).map (lookupCount number_counts)

/-- generate_banker_combinations(number_counts, bankers, num_combinations,
num_per_combo) from src/m6.py; legs_needed is inlined as
num_per_combo - bankers.length; combination i uses stream values
15 * i .. 15 * i + 14. -/
def generate_banker_combinations (number_counts : Table) (bankers : List Int)
    (num_combinations num_per_combo : Int) (rng : Nat → Nat) :
    Option (List (List Int)) :=
  if num_per_combo - (bankers.length : Int) ≤ 0 then some []
  else
    collectDraws
      (bankerDraw (leg_population number_counts bankers)
        (leg_weights number_counts bankers) bankers
        (num_per_combo - (bankers.length : Int)) rng)
      (List.range num_combinations.toNat)

/-- dict.keys() as a state-passing read of the table. -/
def pyKeysSt (d : Table) : List Int × Table := (d.map Prod.fst, d)

/-- dict.values() as a state-passing read of the table. -/
def pyValuesSt (d : Table) : List Nat × Table := (d.map Prod.snd, d)

/-- Truthiness test (not number_counts) as a state-passing read of the table. -/
def pyIsEmptySt (d : Table) : Bool × Table := (d.isEmpty, d)

/-- number_counts[num] as a state-passing read of the table. -/
def pyGetItemSt (d : Table) (x : Int) : Nat × Table := (lookupCount d x, d)

/-- The comprehension building leg_weights, reading the table once per leg and
threading the table through. -/
def legWeightsSt : List Int → Table → List Nat × Table
  | [], d => ([], d)
  | x :: rest, d =>
    let p := pyGetItemSt d x
    let q := legWeightsSt rest p.2
    (p.1 :: q.1, q.2)

/-- generate_weighted_combinations with every access to the table threaded
through explicit state, to observe the table it leaves behind. -/
def generate_weighted_st (number_counts : Table)
    (num_combinations num_per_combo : Int) (rng : Nat → Nat) :
    Option (List (List Int)) × Table :=
  let p0 := pyIsEmptySt number_counts
  if p0.1 then (some [], p0.2)
  else
    let p1 := pyKeysSt p0.2
    let p2 := pyValuesSt p1.2
    (collectDraws (weightedDraw p1.1 p2.1 num_per_combo rng)
      (List.range num_combinations.toNat), p2.2)

/-- generate_banker_combinations with every access to the table threaded
through explicit state, to observe the table it leaves behind. -/
def generate_banker_st (number_counts : Table) (bankers : List Int)
    (num_combinations num_per_combo : Int) (rng : Nat → Nat) :
    Option (List (List Int)) × Table :=
  if num_per_combo - (bankers.length : Int) ≤ 0 then (some [], number_counts)
  else
    let p1 := pyKeysSt number_counts
    let legPop := p1.1.filter (fun num => decide (num ∉ bankers))
    let p2 := legWeightsSt legPop p1.2
    (collectDraws
      (bankerDraw legPop p2.1 bankers (num_per_combo - (bankers.length : Int)) rng)
      (List.range num_combinations.toNat), p2.2)

/-! ### Helper lemmas -/

theorem totalWeight_cons (x : Int) (w : Nat) (rest : List (Int × Nat)) :
    totalWeight ((x, w) :: rest) = w + totalWeight rest := by
  simp [totalWeight]

theorem pickWeighted_mem_pos :
    ∀ (l : List (Int × Nat)) (u : Nat), u < totalWeight l →
      ∃ w, (pickWeighted l u, w) ∈ l ∧ 0 < w
  | [], u, hu => absurd hu (by simp [totalWeight])
  | (x, w) :: rest, u, hu => by
    rw [totalWeight_cons] at hu
    by_cases h : u < w
    · exact ⟨w, by simp [pickWeighted, h], Nat.lt_of_le_of_lt (Nat.zero_le u) h⟩
    · have hrest : u - w < totalWeight rest := by omega
      obtain ⟨w', hw', hpos⟩ := pickWeighted_mem_pos rest (u - w) hrest
      exact ⟨w', by simp [pickWeighted, h]; exact Or.inr hw', hpos⟩

theorem choices_some (pop : List Int) (wts : List Nat) (k : Nat) (rng : Nat → Nat)
    (base : Nat) (os : List Int) (h : choices pop wts k rng base = some os) :
    os.length = k ∧ ∀ x ∈ os, ∃ w, (x, w) ∈ pop.zip wts ∧ 0 < w := by
  by_cases ht : totalWeight (pop.zip wts) = 0
  · simp [choices, ht] at h
  · simp only [choices, if_neg ht] at h
    injection h with h
    subst h
    constructor
    · simp
    · intro x hx
      simp only [List.mem_map, List.mem_range] at hx
      obtain ⟨j, _, hj⟩ := hx
      have := pickWeighted_mem_pos (pop.zip wts) (rng (base + j) % totalWeight (pop.zip wts))
        (Nat.mod_lt _ (Nat.pos_of_ne_zero ht))
      rw [hj] at this
      exact this

theorem choices_congr (pop : List Int) (wts : List Nat) (k : Nat)
    (rng₁ rng₂ : Nat → Nat) (base : Nat)
    (h : ∀ j < k, rng₁ (base + j) = rng₂ (base + j)) :
    choices pop wts k rng₁ base = choices pop wts k rng₂ base := by
  by_cases ht : totalWeight (pop.zip wts) = 0
  · simp [choices, ht]
  · simp only [choices, if_neg ht, Option.some.injEq]
    exact List.map_congr_left (fun j hj => by rw [h j (List.mem_range.mp hj)])

theorem mem_dedupFirstAux (seen l : List Int) (x : Int) :
    x ∈ dedupFirstAux seen l ↔ x ∈ l ∧ x ∉ seen := by
  induction l generalizing seen with
  | nil => simp [dedupFirstAux]
  | cons y rest ih =>
    by_cases hy : y ∈ seen
    · rw [dedupFirstAux, if_pos hy, ih, List.mem_cons]
      constructor
      · exact fun ⟨hr, hs⟩ => ⟨Or.inr hr, hs⟩
      · rintro ⟨hxy | hr, hs⟩
        · exact absurd (hxy ▸ hy) hs
        · exact ⟨hr, hs⟩
    · rw [dedupFirstAux, if_neg hy, List.mem_cons, ih, List.mem_cons, List.mem_cons]
      by_cases hxy : x = y
      · subst hxy; simp [hy]
      · simp [hxy]

theorem nodup_dedupFirstAux (seen l : List Int) : (dedupFirstAux seen l).Nodup := by
  induction l generalizing seen with
  | nil => simp [dedupFirstAux]
  | cons y rest ih =>
    by_cases hy : y ∈ seen
    · rw [dedupFirstAux, if_pos hy]; exact ih seen
    · rw [dedupFirstAux, if_neg hy, List.nodup_cons]
      refine ⟨?_, ih (y :: seen)⟩
      rw [mem_dedupFirstAux]
      rintro ⟨-, hns⟩
      exact hns (List.mem_cons_self y seen)

theorem dedupFirstAux_sublist (seen l : List Int) :
    List.Sublist (dedupFirstAux seen l) l := by
  induction l generalizing seen with
  | nil => simp [dedupFirstAux]
  | cons y rest ih =>
    by_cases hy : y ∈ seen
    · rw [dedupFirstAux, if_pos hy]; exact (ih seen).cons y
    · rw [dedupFirstAux, if_neg hy]; exact (ih (y :: seen)).cons₂ y

theorem nodup_dedupFirst (l : List Int) : (dedupFirst l).Nodup :=
  nodup_dedupFirstAux [] l

theorem dedupFirst_sublist (l : List Int) : List.Sublist (dedupFirst l) l :=
  dedupFirstAux_sublist [] l

theorem mem_dedupFirst (l : List Int) (x : Int) : x ∈ dedupFirst l ↔ x ∈ l := by
  rw [dedupFirst, mem_dedupFirstAux]
  simp

theorem collectDraws_mem (step : Nat → Option (Option (List Int))) :
    ∀ (l : List Nat) (out : List (List Int)), collectDraws step l = some out →
      ∀ c ∈ out, ∃ i ∈ l, step i = some (some c)
  | [], out, h, c, hc => by
    simp [collectDraws] at h
    subst h
    cases hc
  | i :: rest, out, h, c, hc => by
    rw [collectDraws] at h
    match hstep : step i with
    | none => rw [hstep] at h; cases h
    | some none =>
      rw [hstep] at h
      obtain ⟨j, hj, hs⟩ := collectDraws_mem step rest out h c hc
      exact ⟨j, List.mem_cons_of_mem i hj, hs⟩
    | some (some c₀) =>
      rw [hstep] at h
      match hrest : collectDraws step rest with
      | none => rw [hrest] at h; cases h
      | some out' =>
        rw [hrest] at h
        have h' : c₀ :: out' = out := by simpa using h
        subst h'
        rcases List.mem_cons.mp hc with hcc | hmem
        · exact ⟨i, List.mem_cons_self i rest, hcc ▸ hstep⟩
        · obtain ⟨j, hj, hs⟩ := collectDraws_mem step rest out' hrest c hmem
          exact ⟨j, List.mem_cons_of_mem i hj, hs⟩

theorem collectDraws_length (step : Nat → Option (Option (List Int))) :
    ∀ (l : List Nat) (out : List (List Int)), collectDraws step l = some out →
      out.length ≤ l.length
  | [], out, h => by
    simp [collectDraws] at h
    subst h
    simp
  | i :: rest, out, h => by
    rw [collectDraws] at h
    match hstep : step i with
    | none => rw [hstep] at h; cases h
    | some none =>
      rw [hstep] at h
      exact Nat.le_succ_of_le (collectDraws_length step rest out h)
    | some (some c₀) =>
      rw [hstep] at h
      match hrest : collectDraws step rest with
      | none => rw [hrest] at h; cases h
      | some out' =>
        rw [hrest] at h
        have h' : c₀ :: out' = out := by simpa using h
        subst h'
        simpa using Nat.succ_le_succ (collectDraws_length step rest out' hrest)

theorem collectDraws_total (step : Nat → Option (Option (List Int))) :
    ∀ l : List Nat, (∀ i ∈ l, step i ≠ none) →
      ∃ out, collectDraws step l = some out
  | [], _ => ⟨[], rfl⟩
  | i :: rest, h => by
    obtain ⟨out, hout⟩ := collectDraws_total step rest
      (fun j hj => h j (List.mem_cons_of_mem i hj))
    match hstep : step i with
    | none => exact absurd hstep (h i (List.mem_cons_self i rest))
    | some none =>
      exact ⟨out, by rw [collectDraws, hstep]; exact hout⟩
    | some (some c) =>
      exact ⟨c :: out, by rw [collectDraws, hstep, hout]; rfl⟩

theorem collectDraws_congr (step₁ step₂ : Nat → Option (Option (List Int))) :
    ∀ l : List Nat, (∀ i ∈ l, step₁ i = step₂ i) →
      collectDraws step₁ l = collectDraws step₂ l
  | [], _ => rfl
  | i :: rest, h => by
    rw [collectDraws, collectDraws, h i (List.mem_cons_self i rest),
      collectDraws_congr step₁ step₂ rest (fun j hj => h j (List.mem_cons_of_mem i hj))]

theorem zip_keys_values (t : Table) : (keys t).zip (values t) = t := by
  induction t with
  | nil => rfl
  | cons p rest ih =>
    obtain ⟨x, w⟩ := p
    simpa [keys, values, List.zip_cons_cons] using ih

theorem zip_self_map (legs : List Int) (f : Int → Nat) :
    legs.zip (legs.map f) = legs.map (fun x => (x, f x)) := by
  induction legs with
  | nil => rfl
  | cons x rest ih => simp [List.zip_cons_cons, ih]

theorem generate_weighted_mem (t : Table) (b n : Int) (rng : Nat → Nat)
    (out : List (List Int)) (c : List Int)
    (hout : generate_weighted_combinations t b n rng = some out) (hc : c ∈ out) :
    ∃ i, i < b.toNat ∧ ∃ os, choices (keys t) (values t) 20 rng (20 * i) = some os ∧
      n ≤ ((dedupFirst os).length : Int) ∧ c = pySorted (pySlice (dedupFirst os) n) := by
  rw [generate_weighted_combinations] at hout
  by_cases he : t.isEmpty
  · rw [if_pos he] at hout
    injection hout with hout
    subst hout
    cases hc
  · rw [if_neg he] at hout
    obtain ⟨i, hi, hstep⟩ := collectDraws_mem _ _ _ hout c hc
    rw [List.mem_range] at hi
    unfold weightedDraw at hstep
    split at hstep
    · cases hstep
    case _ os hch =>
      split at hstep
      case _ hn =>
        refine ⟨i, hi, os, hch, hn, ?_⟩
        injection hstep with hstep
        injection hstep with hstep
        exact hstep.symm
      case _ => cases hstep

theorem generate_banker_mem (t : Table) (bankers : List Int) (b n : Int)
    (rng : Nat → Nat) (out : List (List Int)) (c : List Int)
    (hout : generate_banker_combinations t bankers b n rng = some out) (hc : c ∈ out) :
    ∃ i, i < b.toNat ∧ ∃ os,
      choices (leg_population t bankers) (leg_weights t bankers) 15 rng (15 * i) = some os ∧
      n - (bankers.length : Int) ≤ ((dedupFirst os).length : Int) ∧
      c = pySorted (bankers ++ pySlice (dedupFirst os) (n - (bankers.length : Int))) := by
  rw [generate_banker_combinations] at hout
  by_cases hl : n - (bankers.length : Int) ≤ 0
  · rw [if_pos hl] at hout
    injection hout with hout
    subst hout
    cases hc
  · rw [if_neg hl] at hout
    obtain ⟨i, hi, hstep⟩ := collectDraws_mem _ _ _ hout c hc
    rw [List.mem_range] at hi
    unfold bankerDraw at hstep
    split at hstep
    · cases hstep
    case _ os hch =>
      split at hstep
      case _ hn =>
        refine ⟨i, hi, os, hch, hn, ?_⟩
        injection hstep with hstep
        injection hstep with hstep
        exact hstep.symm
      case _ => cases hstep

/-! ### Claims -/

/-- C1: for every non-empty frequency table, every combinationSize in
[1, |table|] and every batchSize, every combination returned by
generate_weighted_combinations has exactly combinationSize pairwise-distinct
elements, each of which is a key of the table, and is sorted ascending. -/
theorem c1_weighted_combination_shape (t : Table) (b n : Int) (rng : Nat → Nat)
    (hne : t ≠ []) (h1 : 1 ≤ n) (hn : n ≤ (t.length : Int))
    (out : List (List Int)) (hout : generate_weighted_combinations t b n rng = some out)
    (c : List Int) (hc : c ∈ out) :
    (c.length : Int) = n ∧ c.Nodup ∧ (∀ x ∈ c, x ∈ keys t) ∧ List.Sorted (· ≤ ·) c := by
  obtain ⟨i, hi, os, hch, hlen, hceq⟩ := generate_weighted_mem t b n rng out c hout hc
  obtain ⟨hoslen, hosmem⟩ := choices_some _ _ _ _ _ _ hch
  have hnodup : (dedupFirst os).Nodup := nodup_dedupFirst os
  have hslice : pySlice (dedupFirst os) n = (dedupFirst os).take n.toNat := by
    rw [pySlice, if_neg (by omega)]
  have hperm : List.Perm c ((dedupFirst os).take n.toNat) := by
    rw [hceq, hslice]
    exact List.perm_insertionSort _ _
  have htlen : n.toNat ≤ (dedupFirst os).length := by omega
  refine ⟨?_, ?_, ?_, ?_⟩
  · rw [hperm.length_eq, List.length_take]
    omega
  · exact hperm.nodup_iff.mpr ((List.take_sublist _ _).nodup hnodup)
  · intro x hx
    have hxu : x ∈ dedupFirst os :=
      (List.take_sublist _ _).subset (hperm.mem_iff.mp hx)
    have hxos : x ∈ os := (mem_dedupFirst os x).mp hxu
    obtain ⟨w, hw, -⟩ := hosmem x hxos
    exact (List.of_mem_zip hw).1
  · rw [hceq]
    exact List.sorted_insertionSort _ _

/-- Witness for C1 at the table with keys 1, 2 (counts 1, 1), batch 1,
combination size 1, constant random stream: the emitted combination is [1]. -/
theorem c1_witness :
    ((([1] : List Int).length : Int) = 1 ∧ ([1] : List Int).Nodup ∧
      (∀ x ∈ ([1] : List Int), x ∈ keys [(1,1),(2,1)]) ∧
      List.Sorted (· ≤ ·) ([1] : List Int)) :=
  c1_weighted_combination_shape [(1,1),(2,1)] 1 1 (fun _ => 0) (by decide) (by decide)
    (by decide) [[1]] (by decide) [1] (by decide)

/-- C2: for every non-empty table and every banker list of pairwise-distinct
table keys with 1 ≤ |bankers| ≤ combinationSize - 1, every combination
returned by generate_banker_combinations contains all the bankers plus exactly
legsNeeded = combinationSize - |bankers| additional pairwise-distinct numbers
drawn from the table keys minus the bankers, has total length combinationSize,
and is sorted ascending. -/
theorem c2_banker_combination_shape (t : Table) (bankers : List Int) (b n : Int)
    (rng : Nat → Nat) (hne : t ≠ []) (hbnd : bankers.Nodup)
    (hbk : ∀ x ∈ bankers, x ∈ keys t)
    (h1 : 1 ≤ bankers.length) (h2 : (bankers.length : Int) ≤ n - 1)
    (out : List (List Int))
    (hout : generate_banker_combinations t bankers b n rng = some out)
    (c : List Int) (hc : c ∈ out) :
    ∃ legs : List Int,
      List.Perm c (bankers ++ legs) ∧
      (legs.length : Int) = n - (bankers.length : Int) ∧
      legs.Nodup ∧
      (∀ x ∈ legs, x ∈ keys t ∧ x ∉ bankers) ∧
      (∀ x ∈ bankers, x ∈ c) ∧
      (c.length : Int) = n ∧ c.Nodup ∧ List.Sorted (· ≤ ·) c := by
  obtain ⟨i, hi, os, hch, hnlen, hceq⟩ :=
    generate_banker_mem t bankers b n rng out c hout hc
  obtain ⟨hoslen, hosmem⟩ := choices_some _ _ _ _ _ _ hch
  have hnodup : (dedupFirst os).Nodup := nodup_dedupFirst os
  have hslice : pySlice (dedupFirst os) (n - (bankers.length : Int)) =
      (dedupFirst os).take (n - (bankers.length : Int)).toNat := by
    rw [pySlice, if_neg (by omega)]
  have hlegmem : ∀ x ∈ (dedupFirst os).take (n - (bankers.length : Int)).toNat,
      x ∈ keys t ∧ x ∉ bankers := by
    intro x hx
    have hxu : x ∈ dedupFirst os := (List.take_sublist _ _).subset hx
    have hxos : x ∈ os := (mem_dedupFirst os x).mp hxu
    obtain ⟨w, hw, -⟩ := hosmem x hxos
    have hxpop : x ∈ leg_population t bankers := (List.of_mem_zip hw).1
    rw [leg_population, List.mem_filter] at hxpop
    exact ⟨hxpop.1, of_decide_eq_true hxpop.2⟩
  have hperm :
      List.Perm c (bankers ++ (dedupFirst os).take (n - (bankers.length : Int)).toNat) := by
    rw [hceq, hslice]
    exact List.perm_insertionSort _ _
  have hleglen : ((dedupFirst os).take (n - (bankers.length : Int)).toNat).length
      = (n - (bankers.length : Int)).toNat := by
    rw [List.length_take]
    omega
  have hlegnodup : ((dedupFirst os).take (n - (bankers.length : Int)).toNat).Nodup :=
    (List.take_sublist _ _).nodup hnodup
  have hdisj : List.Disjoint bankers ((dedupFirst os).take (n - (bankers.length : Int)).toNat) :=
    fun a ha hb => (hlegmem a hb).2 ha
  refine ⟨(dedupFirst os).take (n - (bankers.length : Int)).toNat,
    hperm, ?_, hlegnodup, hlegmem, ?_, ?_, ?_, ?_⟩
  · rw [hleglen]
    omega
  · intro x hx
    exact hperm.mem_iff.mpr (List.mem_append_left _ hx)
  · rw [hperm.length_eq, List.length_append, hleglen]
    push_cast
    omega
  · exact hperm.nodup_iff.mpr (hbnd.append hlegnodup hdisj)
  · rw [hceq]
    exact List.sorted_insertionSort _ _

/-- Witness for C2 at the table with keys 1, 2, 3 (all count 1), banker 2,
batch 1, combination size 2, constant random stream: the emitted combination
is [1, 2], made of banker 2 and leg 1. -/
theorem c2_witness :
    ∃ legs : List Int,
      List.Perm ([1, 2] : List Int) ([2] ++ legs) ∧
      (legs.length : Int) = 2 - (([2] : List Int).length : Int) ∧
      legs.Nodup ∧
      (∀ x ∈ legs, x ∈ keys [(1,1),(2,1),(3,1)] ∧ x ∉ ([2] : List Int)) ∧
      (∀ x ∈ ([2] : List Int), x ∈ ([1, 2] : List Int)) ∧
      ((([1, 2] : List Int).length : Int) = 2 ∧ ([1, 2] : List Int).Nodup ∧
        List.Sorted (· ≤ ·) ([1, 2] : List Int)) :=
  c2_banker_combination_shape [(1,1),(2,1),(3,1)] [2] 1 2 (fun _ => 0) (by decide)
    (by decide) (by decide) (by decide) (by decide) [[1, 2]] (by decide) [1, 2] (by decide)

/-- The pairs of a weighted population whose weight is positive: the keys with
non-zero probability mass under random.choices. -/
def positivePairs (l : List (Int × Nat)) : List (Int × Nat) :=
  l.filter (fun p => decide (0 < p.2))

/-- pySlice always yields an in-order selection of its input. -/
theorem pySlice_sublist (l : List Int) (n : Int) : List.Sublist (pySlice l n) l := by
  rw [pySlice]
  split
  · exact List.take_sublist _ _
  · exact List.take_sublist _ _

/-- The deduplicated oversample cannot hold more distinct numbers than the
population has positive-weight pairs. -/
theorem dedup_length_le_positive (os : List Int) (pw : List (Int × Nat))
    (hmem : ∀ x ∈ os, ∃ w, (x, w) ∈ pw ∧ 0 < w) :
    (dedupFirst os).length ≤ (positivePairs pw).length := by
  have hsub : dedupFirst os ⊆ (positivePairs pw).map Prod.fst := by
    intro x hx
    obtain ⟨w, hw, hpos⟩ := hmem x ((mem_dedupFirst os x).mp hx)
    exact List.mem_map.mpr ⟨(x, w), List.mem_filter.mpr ⟨hw, decide_eq_true hpos⟩, rfl⟩
  calc (dedupFirst os).length ≤ ((positivePairs pw).map Prod.fst).length :=
        ((nodup_dedupFirst os).subperm hsub).length_le
    _ = (positivePairs pw).length := by simp

/-- A choices call with positive total weight does not raise. -/
theorem choices_ne_none (pop : List Int) (wts : List Nat) (k : Nat)
    (rng : Nat → Nat) (base : Nat) (h : totalWeight (pop.zip wts) ≠ 0) :
    choices pop wts k rng base ≠ none := by
  simp only [choices]
  rw [if_neg h]
  simp

/-- A weighted draw with positive total weight never escapes with an exception. -/
theorem weightedDraw_ne_none (pop : List Int) (wts : List Nat) (n : Int)
    (rng : Nat → Nat) (i : Nat) (h : totalWeight (pop.zip wts) ≠ 0) :
    weightedDraw pop wts n rng i ≠ none := by
  unfold weightedDraw
  split
  case _ hch => exact absurd hch (choices_ne_none _ _ _ _ _ h)
  case _ os hch => split <;> simp

/-- A banker draw with positive total weight never escapes with an exception. -/
theorem bankerDraw_ne_none (pop : List Int) (wts : List Nat) (bankers : List Int)
    (ln : Int) (rng : Nat → Nat) (i : Nat) (h : totalWeight (pop.zip wts) ≠ 0) :
    bankerDraw pop wts bankers ln rng i ≠ none := by
  unfold bankerDraw
  split
  case _ hch => exact absurd hch (choices_ne_none _ _ _ _ _ h)
  case _ os hch => split <;> simp

/-- C3 counterexample: the claim that each core operation returns an empty
sequence on an invalid request fails twice on the code. With the non-empty
table containing key 1 and combinationSize 0 the weighted generator returns a
batch holding one empty combination, not the empty sequence; and with the
empty table and legsNeeded = 5 > 0 the banker generator propagates the
exception random.choices raises on an empty population (modelled none) rather
than returning the empty sequence. -/
theorem c3_counterexample :
    generate_weighted_combinations [(1,1)] 1 0 (fun _ => 0) = some [[]] ∧
    generate_weighted_combinations [(1,1)] 1 0 (fun _ => 0) ≠ some [] ∧
    generate_banker_combinations [] [1] 1 6 (fun _ => 0) = none := by
  refine ⟨by decide, by decide, by decide⟩

/-- C3 amended: the invalid-request cases the code does handle by returning an
empty sequence without raising are legsNeeded ≤ 0 in banker mode and the
empty table in weighted mode; weighted mode with combinationSize ≤ 0 on a
non-empty table instead emits batchSize degenerate combinations, and banker
mode on an empty table with legsNeeded > 0 raises. -/
theorem c3_amended_invalid_request (t : Table) (bankers : List Int) (b n : Int)
    (rng : Nat → Nat) :
    (n - (bankers.length : Int) ≤ 0 →
      generate_banker_combinations t bankers b n rng = some []) ∧
    (t = [] → generate_weighted_combinations t b n rng = some []) := by
  constructor
  · intro h
    rw [generate_banker_combinations, if_pos h]
  · intro h
    subst h
    simp [generate_weighted_combinations]

/-- Witness for C3 amended: banker mode with 2 bankers and combinationSize 2
(legsNeeded 0) returns the empty batch, and weighted mode on the empty table
returns the empty batch. -/
theorem c3_amended_witness :
    generate_banker_combinations [(1,1)] [1, 2] 1 2 (fun _ => 0) = some [] ∧
    generate_weighted_combinations [] 1 6 (fun _ => 0) = some [] :=
  ⟨(c3_amended_invalid_request [(1,1)] [1, 2] 1 2 (fun _ => 0)).1 (by decide),
   (c3_amended_invalid_request [] [1, 2] 1 6 (fun _ => 0)).2 rfl⟩

/-- C4 counterexample: the table whose two keys both have count 0 has 0 < 6
keys with non-zero probability mass, so the claim promises a short or empty
batch with no exception; the code instead propagates the ValueError
random.choices raises on a zero total weight (modelled none). -/
theorem c4_counterexample :
    (positivePairs [(1,0),(2,0)]).length = 0 ∧
    generate_weighted_combinations [(1,0),(2,0)] 1 6 (fun _ => 0) = none := by
  refine ⟨by decide, by decide⟩

/-- C4 amended: provided the population retains positive total weight, every
under-filled draw is silently omitted with no retry, the call never raises,
the batch may end short or empty, and a population with fewer positive-weight
keys than the required distinct count yields the empty batch; when every
weight is zero the underlying sampler raises instead. -/
theorem c4_amended_short_batch (t : Table) (bankers : List Int) (b n : Int)
    (rng : Nat → Nat) :
    (0 < totalWeight t →
      ∃ out, generate_weighted_combinations t b n rng = some out ∧
        out.length ≤ b.toNat ∧
        (((positivePairs t).length : Int) < n → out = [])) ∧
    (0 < totalWeight ((leg_population t bankers).zip (leg_weights t bankers)) →
      ∃ out, generate_banker_combinations t bankers b n rng = some out ∧
        out.length ≤ b.toNat ∧
        ((((positivePairs ((leg_population t bankers).zip (leg_weights t bankers))).length : Int)
            < n - (bankers.length : Int)) → out = [])) := by
  constructor
  · intro hpos
    have hzip : (keys t).zip (values t) = t := zip_keys_values t
    have ht0 : totalWeight ((keys t).zip (values t)) ≠ 0 := by
      rw [hzip]
      omega
    by_cases he : t.isEmpty
    · refine ⟨[], ?_, by simp, fun _ => rfl⟩
      rw [generate_weighted_combinations, if_pos he]
    · obtain ⟨out, hout⟩ := collectDraws_total
        (weightedDraw (keys t) (values t) n rng) (List.range b.toNat)
        (fun i _ => weightedDraw_ne_none _ _ _ _ _ ht0)
      have hgen : generate_weighted_combinations t b n rng = some out := by
        rw [generate_weighted_combinations, if_neg he]
        exact hout
      refine ⟨out, hgen, by simpa using collectDraws_length _ _ _ hout, ?_⟩
      intro hcount
      cases out with
      | nil => rfl
      | cons c rest =>
        exfalso
        obtain ⟨i, hi, os, hch, hnle, -⟩ :=
          generate_weighted_mem t b n rng _ c hgen (List.mem_cons_self c rest)
        obtain ⟨-, hosmem⟩ := choices_some _ _ _ _ _ _ hch
        have hle := dedup_length_le_positive os ((keys t).zip (values t)) hosmem
        rw [hzip] at hle
        omega
  · intro hpos
    have ht0 : totalWeight ((leg_population t bankers).zip (leg_weights t bankers)) ≠ 0 := by
      omega
    by_cases hl : n - (bankers.length : Int) ≤ 0
    · refine ⟨[], ?_, by simp, fun _ => rfl⟩
      rw [generate_banker_combinations, if_pos hl]
    · obtain ⟨out, hout⟩ := collectDraws_total
        (bankerDraw (leg_population t bankers) (leg_weights t bankers) bankers
          (n - (bankers.length : Int)) rng) (List.range b.toNat)
        (fun i _ => bankerDraw_ne_none _ _ _ _ _ _ ht0)
      have hgen : generate_banker_combinations t bankers b n rng = some out := by
        rw [generate_banker_combinations, if_neg hl]
        exact hout
      refine ⟨out, hgen, by simpa using collectDraws_length _ _ _ hout, ?_⟩
      intro hcount
      cases out with
      | nil => rfl
      | cons c rest =>
        exfalso
        obtain ⟨i, hi, os, hch, hnle, -⟩ :=
          generate_banker_mem t bankers b n rng _ c hgen (List.mem_cons_self c rest)
        obtain ⟨-, hosmem⟩ := choices_some _ _ _ _ _ _ hch
        have hle := dedup_length_le_positive os
          ((leg_population t bankers).zip (leg_weights t bankers)) hosmem
        omega

/-- Witness for C4 amended at the table mapping 1 to count 5 and 2 to count 0:
the total weight is positive, so the weighted call returns a batch of at most
5 combinations and, its one positive key being fewer than 6, that batch is
empty. -/
theorem c4_amended_witness :
    ∃ out, generate_weighted_combinations [(1,5),(2,0)] 5 6 (fun _ => 0) = some out ∧
      out.length ≤ (5 : Int).toNat ∧
      (((positivePairs [(1,5),(2,0)]).length : Int) < 6 → out = []) :=
  (c4_amended_short_batch [(1,5),(2,0)] [] 5 6 (fun _ => 0)).1 (by decide)

/-- C5 counterexample: in the table mapping 1 to count 5 and 2 to count 0,
the zero-count number 2 is never drawn under any random source: no output
combination of generate_weighted_combinations ever contains it, refuting the
claim that it stays eligible with non-zero probability. -/
theorem c5_counterexample :
    ¬ ∃ (rng : Nat → Nat) (out : List (List Int)) (c : List Int),
        generate_weighted_combinations [(1,5),(2,0)] 3 1 rng = some out ∧
        c ∈ out ∧ (2 : Int) ∈ c := by
  rintro ⟨rng, out, c, hout, hc, h2⟩
  obtain ⟨i, hi, os, hch, hnle, hceq⟩ :=
    generate_weighted_mem [(1,5),(2,0)] 3 1 rng out c hout hc
  obtain ⟨-, hosmem⟩ := choices_some _ _ _ _ _ _ hch
  have hperm : List.Perm c (pySlice (dedupFirst os) 1) :=
    hceq ▸ List.perm_insertionSort _ _
  have h2u : (2 : Int) ∈ dedupFirst os :=
    (pySlice_sublist _ _).subset (hperm.mem_iff.mp h2)
  obtain ⟨w, hw, hpos⟩ := hosmem 2 ((mem_dedupFirst os 2).mp h2u)
  rw [zip_keys_values] at hw
  simp only [List.mem_cons, List.not_mem_nil, or_false, Prod.mk.injEq] at hw
  rcases hw with ⟨h1, -⟩ | ⟨-, hw0⟩
  · exact absurd h1 (by decide)
  · omega

/-- C5 amended: a zero-count number stays in the population handed to the
sampler, but random.choices assigns it probability exactly zero: under every
random source, every number appearing in an output combination of
generate_weighted_combinations is a table key with a positive count. -/
theorem c5_amended_zero_count_never_drawn (t : Table) (b n : Int)
    (rng : Nat → Nat) (out : List (List Int)) (c : List Int) (x : Int)
    (hout : generate_weighted_combinations t b n rng = some out)
    (hc : c ∈ out) (hx : x ∈ c) :
    x ∈ keys t ∧ ∃ w, (x, w) ∈ t ∧ 0 < w := by
  obtain ⟨i, hi, os, hch, hnle, hceq⟩ := generate_weighted_mem t b n rng out c hout hc
  obtain ⟨-, hosmem⟩ := choices_some _ _ _ _ _ _ hch
  have hperm : List.Perm c (pySlice (dedupFirst os) n) :=
    hceq ▸ List.perm_insertionSort _ _
  have hxu : x ∈ dedupFirst os :=
    (pySlice_sublist _ _).subset (hperm.mem_iff.mp hx)
  obtain ⟨w, hw, hpos⟩ := hosmem x ((mem_dedupFirst os x).mp hxu)
  rw [zip_keys_values] at hw
  exact ⟨List.mem_map.mpr ⟨(x, w), hw, rfl⟩, w, hw, hpos⟩

/-- Witness for C5 amended: in the one-key table mapping 1 to count 5, the
emitted number 1 is a key with positive count. -/
theorem c5_amended_witness :
    (1 : Int) ∈ keys [(1,5)] ∧ ∃ w, ((1 : Int), w) ∈ ([(1,5)] : Table) ∧ 0 < w :=
  c5_amended_zero_count_never_drawn [(1,5)] 1 1 (fun _ => 0) [[1]] [1] 1
    (by decide) (by decide) (by decide)

/-- C6: every produced combination arises by first drawing a fixed-size
oversample with replacement (20 values in unconstrained mode, 15 in banker
mode) from the weighted key population (restricted to non-bankers in banker
mode), then deduplicating the oversample before truncating to the required
distinct count; and dedupFirst deduplicates while preserving first-occurrence
order (its output is duplicate-free and an in-order selection of its input
covering exactly the input's elements). -/
theorem c6_oversample_then_dedup (t : Table) (bankers : List Int) (b n : Int)
    (rng : Nat → Nat) :
    (∀ out, generate_weighted_combinations t b n rng = some out →
      ∀ c ∈ out, ∃ i, i < b.toNat ∧ ∃ os,
        choices (keys t) (values t) 20 rng (20 * i) = some os ∧ os.length = 20 ∧
        c = pySorted (pySlice (dedupFirst os) n)) ∧
    (∀ out, generate_banker_combinations t bankers b n rng = some out →
      ∀ c ∈ out, ∃ i, i < b.toNat ∧ ∃ os,
        choices (leg_population t bankers) (leg_weights t bankers) 15 rng (15 * i)
          = some os ∧ os.length = 15 ∧
        c = pySorted (bankers ++ pySlice (dedupFirst os) (n - (bankers.length : Int)))) ∧
    (∀ l : List Int, (dedupFirst l).Nodup ∧ List.Sublist (dedupFirst l) l ∧
      ∀ x, x ∈ dedupFirst l ↔ x ∈ l) := by
  refine ⟨?_, ?_, ?_⟩
  · intro out hout c hc
    obtain ⟨i, hi, os, hch, -, hceq⟩ := generate_weighted_mem t b n rng out c hout hc
    exact ⟨i, hi, os, hch, (choices_some _ _ _ _ _ _ hch).1, hceq⟩
  · intro out hout c hc
    obtain ⟨i, hi, os, hch, -, hceq⟩ :=
      generate_banker_mem t bankers b n rng out c hout hc
    exact ⟨i, hi, os, hch, (choices_some _ _ _ _ _ _ hch).1, hceq⟩
  · intro l
    exact ⟨nodup_dedupFirst l, dedupFirst_sublist l, fun x => mem_dedupFirst l x⟩

/-- Witness for C6: the combination [1] emitted from the one-key table comes
from a 20-element oversample deduplicated and truncated to one number. -/
theorem c6_witness :
    ∃ i, i < (1 : Int).toNat ∧ ∃ os,
      choices (keys [(1,1)]) (values [(1,1)]) 20 (fun _ => 0) (20 * i) = some os ∧
      os.length = 20 ∧ ([1] : List Int) = pySorted (pySlice (dedupFirst os) 1) :=
  (c6_oversample_then_dedup [(1,1)] [] 1 1 (fun _ => 0)).1 [[1]] (by decide) [1] (by decide)

/-- C7: two calls to the same core operation with identical inputs and an
identical (injected, seeded) random source produce identical outputs; stated
strongly, the outputs agree as soon as the two random streams agree on the
prefix of indices the batch can consume. -/
theorem c7_determinism (t : Table) (bankers : List Int) (b n : Int)
    (rng₁ rng₂ : Nat → Nat) (h : ∀ i, i < 20 * b.toNat → rng₁ i = rng₂ i) :
    generate_weighted_combinations t b n rng₁ = generate_weighted_combinations t b n rng₂ ∧
    generate_banker_combinations t bankers b n rng₁
      = generate_banker_combinations t bankers b n rng₂ := by
  constructor
  · rw [generate_weighted_combinations, generate_weighted_combinations]
    by_cases he : t.isEmpty
    · rw [if_pos he, if_pos he]
    · rw [if_neg he, if_neg he]
      refine collectDraws_congr _ _ _ (fun i hi => ?_)
      rw [List.mem_range] at hi
      unfold weightedDraw
      rw [choices_congr (keys t) (values t) 20 rng₁ rng₂ (20 * i)
        (fun j hj => h (20 * i + j) (by omega))]
  · rw [generate_banker_combinations, generate_banker_combinations]
    by_cases hl : n - (bankers.length : Int) ≤ 0
    · rw [if_pos hl, if_pos hl]
    · rw [if_neg hl, if_neg hl]
      refine collectDraws_congr _ _ _ (fun i hi => ?_)
      rw [List.mem_range] at hi
      unfold bankerDraw
      rw [choices_congr (leg_population t bankers) (leg_weights t bankers) 15 rng₁ rng₂
        (15 * i) (fun j hj => h (15 * i + j) (by omega))]

/-- Witness for C7: two random streams that agree on the 20 indices a batch of
one combination can consume, and differ beyond them, give the same output. -/
theorem c7_witness :
    generate_weighted_combinations [(1,2),(2,1)] 1 1 (fun _ => 0)
      = generate_weighted_combinations [(1,2),(2,1)] 1 1
          (fun i => if i < 20 then 0 else 7) :=
  (c7_determinism [(1,2),(2,1)] [] 1 1 (fun _ => 0) (fun i => if i < 20 then 0 else 7)
    (fun i hi => by
      have hi20 : i < 20 := by simpa using hi
      simp [hi20])).1

/-- Unfolding of the leg_weights comprehension in state-passing form: it reads
the table once per leg and leaves the table unchanged. -/
theorem legWeightsSt_eq : ∀ (legs : List Int) (d : Table),
    legWeightsSt legs d = (legs.map (lookupCount d), d)
  | [], _ => rfl
  | x :: rest, d => by
    simp [legWeightsSt, pyGetItemSt, legWeightsSt_eq rest d]

/-- C8: neither core operation mutates the frequency table it is given: with
every table access threaded through explicit state, the table coming out of a
call equals the table going in, and the computed batch agrees with the pure
embedding. -/
theorem c8_table_not_mutated (t : Table) (bankers : List Int) (b n : Int)
    (rng : Nat → Nat) :
    (generate_weighted_st t b n rng).2 = t ∧
    (generate_banker_st t bankers b n rng).2 = t ∧
    (generate_weighted_st t b n rng).1 = generate_weighted_combinations t b n rng ∧
    (generate_banker_st t bankers b n rng).1
      = generate_banker_combinations t bankers b n rng := by
  refine ⟨?_, ?_, ?_, ?_⟩
  · by_cases he : t.isEmpty <;>
      simp [generate_weighted_st, pyIsEmptySt, pyKeysSt, pyValuesSt, he]
  · by_cases hl : n - (bankers.length : Int) ≤ 0 <;>
      simp [generate_banker_st, pyKeysSt, legWeightsSt_eq, hl]
  · by_cases he : t.isEmpty <;>
      simp [generate_weighted_st, generate_weighted_combinations, pyIsEmptySt,
        pyKeysSt, pyValuesSt, keys, values, he]
  · by_cases hl : n - (bankers.length : Int) ≤ 0 <;>
      simp [generate_banker_st, generate_banker_combinations, leg_population,
        leg_weights, legWeightsSt_eq, pyKeysSt, keys, hl]

/-- C9: the returned batch never exceeds max(batchSize, 0) combinations, and a
non-positive batchSize yields the empty sequence from both operations. -/
theorem c9_batch_size_bound (t : Table) (bankers : List Int) (b n : Int)
    (rng : Nat → Nat) :
    ((b.toNat : Int) = max b 0) ∧
    (∀ out, generate_weighted_combinations t b n rng = some out → out.length ≤ b.toNat) ∧
    (∀ out, generate_banker_combinations t bankers b n rng = some out →
      out.length ≤ b.toNat) ∧
    (b ≤ 0 → generate_weighted_combinations t b n rng = some [] ∧
      generate_banker_combinations t bankers b n rng = some []) := by
  refine ⟨Int.toNat_eq_max b, ?_, ?_, ?_⟩
  · intro out hout
    rw [generate_weighted_combinations] at hout
    by_cases he : t.isEmpty
    · rw [if_pos he] at hout
      injection hout with h
      subst h
      simp
    · rw [if_neg he] at hout
      simpa using collectDraws_length _ _ _ hout
  · intro out hout
    rw [generate_banker_combinations] at hout
    by_cases hl : n - (bankers.length : Int) ≤ 0
    · rw [if_pos hl] at hout
      injection hout with h
      subst h
      simp
    · rw [if_neg hl] at hout
      simpa using collectDraws_length _ _ _ hout
  · intro hb
    have hb0 : b.toNat = 0 := by omega
    constructor
    · rw [generate_weighted_combinations]
      by_cases he : t.isEmpty
      · rw [if_pos he]
      · rw [if_neg he, hb0]
        simp [collectDraws]
    · rw [generate_banker_combinations]
      by_cases hl : n - (bankers.length : Int) ≤ 0
      · rw [if_pos hl]
      · rw [if_neg hl, hb0]
        simp [collectDraws]

/-- Witness for C9 at batchSize -2: both operations return the empty batch. -/
theorem c9_witness :
    generate_weighted_combinations [(1,1)] (-2) 6 (fun _ => 0) = some [] ∧
    generate_banker_combinations [(1,1)] [2] (-2) 6 (fun _ => 0) = some [] :=
  (c9_batch_size_bound [(1,1)] [2] (-2) 6 (fun _ => 0)).2.2.2 (by decide)

/-- C10: a deduplicated oversample of k with-replacement draws holds at most k
distinct numbers, so with combinationSize above 20 the weighted generator
emits no combination, and with legsNeeded above 15 the banker generator emits
none: any batch either operation returns is empty. -/
theorem c10_oversample_cap (t : Table) (bankers : List Int) (b n : Int)
    (rng : Nat → Nat) (hne : t ≠ []) :
    (20 < n → ∀ out, generate_weighted_combinations t b n rng = some out → out = []) ∧
    (15 < n - (bankers.length : Int) →
      ∀ out, generate_banker_combinations t bankers b n rng = some out → out = []) := by
  constructor
  · intro hn out hout
    cases out with
    | nil => rfl
    | cons c rest =>
      exfalso
      obtain ⟨i, hi, os, hch, hnle, -⟩ :=
        generate_weighted_mem t b n rng _ c hout (List.mem_cons_self c rest)
      have hoslen := (choices_some _ _ _ _ _ _ hch).1
      have hdlen := (dedupFirst_sublist os).length_le
      omega
  · intro hn out hout
    cases out with
    | nil => rfl
    | cons c rest =>
      exfalso
      obtain ⟨i, hi, os, hch, hnle, -⟩ :=
        generate_banker_mem t bankers b n rng _ c hout (List.mem_cons_self c rest)
      have hoslen := (choices_some _ _ _ _ _ _ hch).1
      have hdlen := (dedupFirst_sublist os).length_le
      omega

/-- Witness for C10: a request for 21 distinct numbers from the one-key table
returns the empty batch, and the theorem applies to it. -/
theorem c10_witness :
    generate_weighted_combinations [(1,1)] 1 21 (fun _ => 0) = some [] ∧
    ([] : List (List Int)) = [] :=
  ⟨by decide,
   (c10_oversample_cap [(1,1)] [] 1 21 (fun _ => 0) (by decide)).1 (by decide)
     [] (by decide)⟩

end M6
